import Mathlib

/-!
Verification of the Diet Assistant sources (food.cpp, log.cpp, logs1.cpp).

The C++ sources are shallowly embedded: `std::map<string, V>` becomes an
association list with map semantics (`mapInsert` replaces the value of an
existing key in place and otherwise appends, `alookup` returns the first
binding, `eraseKey` drops the binding); `float`/`double` arithmetic on
calories and servings is modelled exactly over `ℚ`; the unbounded recursion
of `loadCompositeFood` is modelled with an explicit fuel parameter whose
exhaustion is recorded in an `exhausted` flag.  Console warnings are
modelled as structured `Diag` values in emission order.
-/

/-- Model of `std::map::operator[]` assignment: replace the value of the first
binding of `k` if present, otherwise append a new binding. -/
def mapInsert {α : Type} (k : String) (v : α) : List (String × α) → List (String × α)
  | [] => [(k, v)]
  | (k', v') :: rest => if k' = k then (k, v) :: rest else (k', v') :: mapInsert k v rest

/-- Model of `std::map::find`: the value of the first binding of `k`, if any. -/
def alookup {α : Type} (k : String) : List (String × α) → Option α
  | [] => none
  | (k', v) :: rest => if k' = k then some v else alookup k rest

/-- Model of `std::map::erase(key)`. -/
def eraseKey {α : Type} (k : String) (m : List (String × α)) : List (String × α) :=
  m.filter (fun p => !(p.1 == k))

/-- Embeds the `Food` class hierarchy of food.cpp: `BasicFood` stores its
calories; `CompositeFood` stores `FoodComponent`s, i.e. pairs of a shared
`Food` reference and a servings count. -/
inductive Food where
  | basic (name : String) (keywords : List String) (calories : ℚ) : Food
  | composite (name : String) (keywords : List String) (components : List (Food × ℚ)) : Food

/-- Embeds `Food::getName`. -/
def Food.name : Food → String
  | .basic n _ _ => n
  | .composite n _ _ => n

/-- Embeds `Food::getKeywords`. -/
def Food.keywords : Food → List String
  | .basic _ kw _ => kw
  | .composite _ kw _ => kw

/-- Embeds `Food::getCalories`: a `BasicFood` returns its stored calories and
`CompositeFood::getCalories` recomputes `Σ component.calories × servings`
over its immediate components on every call. -/
def Food.getCalories : Food → ℚ
  | .basic _ _ c => c
  | .composite _ _ cs =>
      (cs.attach.map (fun q => q.1.1.getCalories * q.1.2)).sum
termination_by f => sizeOf f
decreasing_by
  rename_i q
  have h1 := List.sizeOf_lt_of_mem q.2
  have h2 : sizeOf q.1.1 < sizeOf q.1 := by
    cases q.1 with | mk a b => simp; omega
  simp only [Food.composite.sizeOf_spec]
  omega

/-- One (name, servings) entry of a composite record's `components` array. -/
structure CompRef where
  name : String
  servings : ℚ
  deriving DecidableEq

/-- The JSON payload kept in `pendingFoods` for a composite record. -/
structure CompRecord where
  name : String
  keywords : List String
  components : List CompRef
  deriving DecidableEq

/-- A parsed food record of the database file, as consumed by
`FoodDatabaseManager::loadDatabase` after JSON parsing. -/
inductive RawRecord where
  | basic (name : String) (keywords : List String) (calories : ℚ) : RawRecord
  | composite (name : String) (keywords : List String) (components : List CompRef) : RawRecord

/-- The console warnings emitted by `loadDatabase`: `foodNotFound name` stands
for "Warning: Food 'name' not found." and `componentMissing c p` for
"Warning: Component 'c' not found for composite food 'p'". -/
inductive Diag where
  | foodNotFound (name : String)
  | componentMissing (component parent : String)
  deriving DecidableEq

/-- The mutable state threaded through `loadDatabase`: the `foods` map, the
warnings printed so far, and whether the fuel of the model ever ran out
(the C++ recursion has no such bound; `exhausted = true` marks runs whose
recursion depth exceeded the supplied fuel). -/
structure RState where
  foods : List (String × Food)
  diags : List Diag
  exhausted : Bool

/-- Embeds the first pass of `FoodDatabaseManager::loadDatabase`: basic
records are materialised into `foods` at once, composite records are parked
in `pendingFoods`. -/
def firstPass (records : List RawRecord) :
    List (String × Food) × List (String × CompRecord) :=
  records.foldl
    (fun acc r =>
      match r with
      | .basic n kw c => (mapInsert n (Food.basic n kw c) acc.1, acc.2)
      | .composite n kw comps => (acc.1, mapInsert n ⟨n, kw, comps⟩ acc.2))
    ([], [])

/-- Embeds the recursive `loadCompositeFood` lambda of
`FoodDatabaseManager::loadDatabase`.  Already-loaded names are returned from
the cache; names that are neither loaded nor pending produce a
`foodNotFound` warning and a null result; otherwise the pending composite's
components are resolved in order (components that resolve to null are
omitted with a `componentMissing` warning) and the freshly built
`CompositeFood` is stored in `foods`.  The fuel argument only decreases when
the procedure actually recurses into a pending composite. -/
def resolveFood (pending : List (String × CompRecord)) :
    Nat → String → RState → Option Food × RState
  | fuel, name, st =>
    match alookup name st.foods with
    | some f => (some f, st)
    | none =>
      match alookup name pending with
      | none => (none, { st with diags := st.diags ++ [Diag.foodNotFound name] })
      | some crec =>
        match fuel with
        | 0 => (none, { st with exhausted := true })
        | fuel' + 1 =>
          let res := crec.components.foldl
            (fun acc cc =>
              let r :=
                match alookup cc.name acc.2.foods with
                | some f => (some f, acc.2)
                | none => resolveFood pending fuel' cc.name acc.2
              match r with
              | (some f, st₁) => (acc.1 ++ [(f, cc.servings)], st₁)
              | (none, st₁) =>
                  (acc.1,
                   { st₁ with diags := st₁.diags ++ [Diag.componentMissing cc.name name] }))
            ([], st)
          let food := Food.composite name crec.keywords res.1
          (some food, { res.2 with foods := mapInsert name food res.2.foods })

/-- The body of the component loop of `loadCompositeFood`, factored out so
that lemmas can speak about the fold. -/
def resolveComp (pending : List (String × CompRecord)) (fuel' : Nat) (parent : String)
    (acc : List (Food × ℚ) × RState) (cc : CompRef) : List (Food × ℚ) × RState :=
  let r :=
    match alookup cc.name acc.2.foods with
    | some f => (some f, acc.2)
    | none => resolveFood pending fuel' cc.name acc.2
  match r with
  | (some f, st₁) => (acc.1 ++ [(f, cc.servings)], st₁)
  | (none, st₁) =>
      (acc.1, { st₁ with diags := st₁.diags ++ [Diag.componentMissing cc.name parent] })

/-- Embeds the second pass of `loadDatabase`: attempt `loadCompositeFood` on
every pending composite name. -/
def runSecondPass (pending : List (String × CompRecord)) (fuel : Nat) (st : RState) : RState :=
  pending.foldl (fun s p => (resolveFood pending fuel p.1 s).2) st

/-- Embeds `FoodDatabaseManager::loadDatabase` on already-parsed records. -/
def loadDatabase (records : List RawRecord) (fuel : Nat) : RState :=
  let fp := firstPass records
  runSecondPass fp.2 fuel { foods := fp.1, diags := [], exhausted := false }

/-- Embeds `FoodDatabaseManager` of food.cpp: the name-keyed `foods` map and
the `modified` flag. -/
structure FoodDatabaseManager where
  foods : List (String × Food)
  modified : Bool

/-- Embeds `FoodDatabaseManager::getFood`. -/
def getFood (db : FoodDatabaseManager) (name : String) : Option Food :=
  alookup name db.foods

/-- Embeds `FoodDatabaseManager::addFood`: refuse (returning `false` and
leaving the state alone) when a food of the same name already exists,
otherwise bind the name and set `modified`. -/
def addFood (db : FoodDatabaseManager) (f : Food) : Bool × FoodDatabaseManager :=
  match alookup f.name db.foods with
  | some _ => (false, db)
  | none => (true, { foods := mapInsert f.name f db.foods, modified := true })

/-- Model of the C-locale `::tolower` used by both search routines on each
character: map `A`–`Z` to `a`–`z`, leave everything else alone. -/
def lowerChar (c : Char) : Char :=
  if 'A' ≤ c ∧ c ≤ 'Z' then Char.ofNat (c.toNat + 32) else c

/-- A string lowered character by character (`std::transform` + `tolower`). -/
def lowerStr (s : String) : List Char := s.data.map lowerChar

/-- Model of `needle` occurring at the very start of `hay`. -/
def startsWithChars : List Char → List Char → Bool
  | [], _ => true
  | _ :: _, [] => false
  | c :: cs, h :: hs => c == h && startsWithChars cs hs

/-- Model of `std::string::find(needle) != npos`: `needle` occurs as a
contiguous substring of `hay`. -/
def containsSub (needle : List Char) : List Char → Bool
  | [] => startsWithChars needle []
  | h :: hs => startsWithChars needle (h :: hs) || containsSub needle hs

/-- The per-keyword test of `FoodDatabaseManager::searchFoodsByKeywords`
(food.cpp, lines 339–371): the lowered keyword occurs in some lowered
food-keyword.  The food's name is NOT consulted by this routine. -/
def kwMatchesDB (kw : String) (f : Food) : Bool :=
  f.keywords.any (fun fk => containsSub (lowerStr kw) (lowerStr fk))

/-- Embeds `FoodDatabaseManager::searchFoodsByKeywords`: `cnt` counts the
keywords that match; with `matchall` a food is kept when `cnt` equals the
number of keywords, otherwise when `cnt > 0`. -/
def searchFoodsByKeywordsDB (foods : List (String × Food)) (kws : List String)
    (matchall : Bool) : List Food :=
  (foods.filter (fun p =>
      let cnt := kws.countP (fun kw => kwMatchesDB kw p.2)
      (matchall && (cnt == kws.length)) || (!matchall && decide (0 < cnt)))).map
    (fun p => p.2)

/-- The per-keyword test of `FoodDiary::searchFoodsByKeywords` (log.cpp,
lines 324–365): the lowered keyword occurs in some lowered food-keyword or
in the lowered food name. -/
def kwMatchesDiary (kw : String) (f : Food) : Bool :=
  f.keywords.any (fun fk => containsSub (lowerStr kw) (lowerStr fk))
    || containsSub (lowerStr kw) (lowerStr f.name)

/-- The accumulator loop of `FoodDiary::searchFoodsByKeywords`: `matches`
starts as `matchAll`, is AND-folded in all-mode and OR-folded with early
exit in any-mode. -/
def diaryMatchLoop (f : Food) (matchAll : Bool) : List String → Bool → Bool
  | [], acc => acc
  | kw :: rest, acc =>
      let found := kwMatchesDiary kw f
      if matchAll then diaryMatchLoop f matchAll rest (acc && found)
      else if found then true
      else diaryMatchLoop f matchAll rest (acc || found)

/-- Embeds `FoodDiary::searchFoodsByKeywords` (log.cpp): returns the names of
the matching foods. -/
def searchFoodsByKeywordsDiary (foods : List (String × Food)) (kws : List String)
    (matchAll : Bool) : List String :=
  (foods.filter (fun p => diaryMatchLoop p.2 matchAll kws matchAll)).map (fun p => p.1)

/-- Embeds the `FoodEntry` record of food.cpp's diary. -/
structure FoodEntry where
  foodName : String
  servings : ℚ
  calories : ℚ
  deriving DecidableEq

/-- The date-keyed daily logs map `map<string, vector<FoodEntry>>`. -/
abbrev DailyLogs := List (String × List FoodEntry)

/-- The entry sequence of a date; absent dates read as the empty sequence
(matching `std::map::operator[]` default construction on read-only use). -/
def entriesOn (m : DailyLogs) (d : String) : List FoodEntry :=
  (alookup d m).getD []

/-- Model of `dailyLogs[date]` in mutating position: default-insert an empty
vector when the key is absent, as `std::map::operator[]` does. -/
def touchDate (d : String) (m : DailyLogs) : DailyLogs :=
  match alookup d m with
  | some _ => m
  | none => mapInsert d [] m

/-- Total calories of one date's log, as summed by
`FoodDiary::displayDailyLog`. -/
def dateTotal (m : DailyLogs) (d : String) : ℚ :=
  ((entriesOn m d).map (fun e => e.calories)).sum

/-- The state captured by `FoodDiary::AddFoodCommand`. -/
structure AddCmd where
  date : String
  foodName : String
  servings : ℚ
  calories : ℚ
  deriving DecidableEq

/-- Embeds the `AddFoodCommand` constructor: the calorie snapshot is
`food.getCalories() * servings` when the catalog lookup succeeds and `0`
when it fails; construction itself never fails. -/
def mkAddCmd (db : FoodDatabaseManager) (date foodName : String) (servings : ℚ) : AddCmd :=
  { date := date, foodName := foodName, servings := servings,
    calories :=
      match getFood db foodName with
      | some f => f.getCalories * servings
      | none => 0 }

/-- Embeds `AddFoodCommand::execute`: append the snapshot entry to the
date's sequence. -/
def addExec (c : AddCmd) (m : DailyLogs) : DailyLogs :=
  mapInsert c.date (entriesOn m c.date ++ [⟨c.foodName, c.servings, c.calories⟩]) m

/-- The match test of `AddFoodCommand::undo`: same food name and servings
within the `0.001` tolerance. -/
def undoMatches (c : AddCmd) (e : FoodEntry) : Bool :=
  e.foodName == c.foodName && decide (|e.servings - c.servings| < 1 / 1000)

/-- Drops the first element satisfying `p` (used on the reversed list to
model the reverse-iterator scan of `AddFoodCommand::undo`). -/
def removeFirst (p : FoodEntry → Bool) : List FoodEntry → List FoodEntry
  | [] => []
  | e :: rest => if p e then rest else e :: removeFirst p rest

/-- Embeds `AddFoodCommand::undo`: `dailyLogs[date]` (default-inserting),
remove the latest entry matching name and servings, then erase the date key
if the sequence is now empty. -/
def addUndo (c : AddCmd) (m : DailyLogs) : DailyLogs :=
  let m₀ := touchDate c.date m
  let entries := entriesOn m₀ c.date
  let entries' :=
    if entries.isEmpty then entries
    else (removeFirst (undoMatches c) entries.reverse).reverse
  if entries'.isEmpty then eraseKey c.date m₀
  else mapInsert c.date entries' m₀

/-- The state captured by `FoodDiary::DeleteFoodCommand`. -/
structure DelCmd where
  date : String
  index : Nat
  captured : FoodEntry
  deriving DecidableEq

/-- Embeds the `DeleteFoodCommand` constructor: capture a copy of the entry
at `index` (the blank `FoodEntry("", 0, 0)` when the index is out of
range). -/
def mkDelCmd (m : DailyLogs) (date : String) (idx : Nat) : DelCmd :=
  { date := date, index := idx,
    captured := ((entriesOn m date).get? idx).getD ⟨"", 0, 0⟩ }

/-- Embeds `DeleteFoodCommand::execute`: `dailyLogs[date]` (default-
inserting), erase the entry at `index` when in range, then erase the date
key if the sequence became empty. -/
def delExec (c : DelCmd) (m : DailyLogs) : DailyLogs :=
  let m₀ := touchDate c.date m
  let entries := entriesOn m₀ c.date
  if c.index < entries.length then
    let entries' := entries.eraseIdx c.index
    if entries'.isEmpty then eraseKey c.date m₀
    else mapInsert c.date entries' m₀
  else m₀

/-- Embeds `DeleteFoodCommand::undo` of food.cpp: `push_back` the captured
entry at the END of the date's sequence. -/
def delUndo (c : DelCmd) (m : DailyLogs) : DailyLogs :=
  mapInsert c.date (entriesOn m c.date ++ [c.captured]) m

/-- Embeds `std::vector::insert(begin() + i, e)` for in-range `i`. -/
def vecInsert (i : Nat) (e : FoodEntry) (l : List FoodEntry) : List FoodEntry :=
  match i, l with
  | 0, l => e :: l
  | _ + 1, [] => [e]
  | i + 1, x :: xs => x :: vecInsert i e xs

/-- Embeds `DailyFoodLog::RemoveFoodCommand::undo` of logs1.cpp:
`dailyLogs[date].insert(begin() + index, removedEntry)` — the captured
entry goes back at its ORIGINAL index, not at the end. -/
def removeUndoL1 (c : DelCmd) (m : DailyLogs) : DailyLogs :=
  mapInsert c.date (vecInsert c.index c.captured (entriesOn m c.date)) m

/-- Embeds `DailyFoodLog::RemoveFoodCommand::execute` of logs1.cpp: guarded
by `find(date) != end && index < size`, erase at `index` and drop the date
key if now empty. -/
def removeExecL1 (c : DelCmd) (m : DailyLogs) : DailyLogs :=
  if (alookup c.date m).isSome && decide (c.index < (entriesOn m c.date).length) then
    let entries' := (entriesOn m c.date).eraseIdx c.index
    if entries'.isEmpty then eraseKey c.date m
    else mapInsert c.date entries' m
  else m

/-- The `Command` hierarchy of food.cpp's diary, as a closed sum. -/
inductive DiaryCommand where
  | add (c : AddCmd)
  | del (c : DelCmd)
  deriving DecidableEq

/-- Dispatch of `Command::undo` over the two concrete commands. -/
def commandUndo : DiaryCommand → DailyLogs → DailyLogs
  | .add c, m => addUndo c m
  | .del c, m => delUndo c m

/-- The observable `FoodDiary` state relevant to undo: the daily logs and
the LIFO undo stack (top of `std::stack` = list head). -/
structure FoodDiaryState where
  dailyLogs : DailyLogs
  undoStack : List DiaryCommand

/-- What `FoodDiary::undo` prints: either the literal "Nothing to undo."
line, or the popped command whose description is echoed after "Undone: ". -/
inductive UndoReport where
  | message (s : String)
  | undone (c : DiaryCommand)

/-- Embeds `FoodDiary::undo`: an empty stack prints "Nothing to undo." and
changes nothing; otherwise the top command is popped and its `undo` runs. -/
def diaryUndo (st : FoodDiaryState) : FoodDiaryState × UndoReport :=
  match st.undoStack with
  | [] => (st, UndoReport.message "Nothing to undo.")
  | c :: rest =>
      ({ dailyLogs := commandUndo c st.dailyLogs, undoStack := rest }, UndoReport.undone c)

/-- Keys of an association list are pairwise distinct. -/
def NoDupKeys {α : Type} (m : List (String × α)) : Prop :=
  m.Pairwise (fun p q => p.1 ≠ q.1)

/-- Monotone evolution of the resolver state: the `exhausted` flag is never
cleared, warnings are never retracted, and the `foods` key set only grows. -/
def StateLe (s t : RState) : Prop :=
  (s.exhausted = true → t.exhausted = true) ∧
  (∀ x ∈ s.diags, x ∈ t.diags) ∧
  (∀ n : String, (alookup n s.foods).isSome → (alookup n t.foods).isSome)

/-- The invariant maintained by `loadCompositeFood` runs, for a globally
unresolvable component name `c`: every cached food carries its own key as
name, `c` itself is never cached, the first-pass basics stay cached, every
cached food is either a first-pass basic or a composite built from its
pending record with no `c`-named component, and every cached pending
composite that references `c` has its missing-component warning on
record. -/
def ResolverInv (pending : List (String × CompRecord)) (foods0 : List (String × Food))
    (c : String) (st : RState) : Prop :=
  (∀ n f, alookup n st.foods = some f → f.name = n) ∧
  (alookup c st.foods = none) ∧
  (∀ n : String, (alookup n foods0).isSome → (alookup n st.foods).isSome) ∧
  (∀ n f, alookup n st.foods = some f →
      alookup n foods0 = some f ∨
      ∃ crec comps, alookup n pending = some crec ∧
        f = Food.composite n crec.keywords comps ∧ ∀ p ∈ comps, p.1.name ≠ c) ∧
  (∀ n crec, alookup n pending = some crec → alookup n foods0 = none →
      (alookup n st.foods).isSome → ∀ cc ∈ crec.components, cc.name = c →
        Diag.componentMissing c n ∈ st.diags)

/-- The spec's Burrito catalog: Rice 200 cal, Beans 150 cal,
Burrito = Rice×2 + Beans×1. -/
def burritoRecords : List RawRecord :=
  [.basic "Rice" ["grain"] 200,
   .basic "Beans" ["protein"] 150,
   .composite "Burrito" ["mexican"] [⟨"Rice", 2⟩, ⟨"Beans", 1⟩]]

/-- A record collection whose composite references the absent name
"Missing". -/
def missingRecords : List RawRecord :=
  [.basic "Rice" ["grain"] 200,
   .composite "Burrito" ["mexican"] [⟨"Rice", 2⟩, ⟨"Missing", 1⟩]]

/-- A one-food catalog whose food is found by name only, not by keyword. -/
def riceDb : FoodDatabaseManager :=
  { foods := [("Rice", Food.basic "Rice" ["grain"] 200)], modified := false }

/-- A ledger with a single date holding two entries. -/
def twoEntryLogs : DailyLogs :=
  [("2024-01-01", [⟨"Rice", 1, 200⟩, ⟨"Beans", 2, 300⟩])]

theorem alookup_mapInsert_self {α : Type} (k : String) (v : α) (m : List (String × α)) :
    alookup k (mapInsert k v m) = some v := by
  induction m with
  | nil => simp [mapInsert, alookup]
  | cons p rest ih =>
      obtain ⟨k', v'⟩ := p
      by_cases h : k' = k <;> simp [mapInsert, alookup, h, ih]

theorem alookup_mapInsert_ne {α : Type} {k k' : String} (h : k' ≠ k) (v : α)
    (m : List (String × α)) : alookup k' (mapInsert k v m) = alookup k' m := by
  have h' : ¬(k = k') := fun e => h e.symm
  induction m with
  | nil => simp [mapInsert, alookup, h']
  | cons p rest ih =>
      obtain ⟨k₀, v₀⟩ := p
      by_cases h0 : k₀ = k
      · subst h0
        simp [mapInsert, alookup, h']
      · simp [mapInsert, alookup, h0, ih]

theorem alookup_eraseKey_self {α : Type} (k : String) (m : List (String × α)) :
    alookup k (eraseKey k m) = none := by
  induction m with
  | nil => rfl
  | cons p rest ih =>
      obtain ⟨k₀, v₀⟩ := p
      by_cases h : k₀ = k
      · subst h
        simpa [eraseKey, List.filter_cons] using ih
      · simpa [eraseKey, List.filter_cons, h, alookup] using ih

theorem alookup_eraseKey_ne {α : Type} {k k' : String} (h : k' ≠ k) (m : List (String × α)) :
    alookup k' (eraseKey k m) = alookup k' m := by
  induction m with
  | nil => rfl
  | cons p rest ih =>
      obtain ⟨k₀, v₀⟩ := p
      by_cases h0 : k₀ = k
      · have h2 : ¬(k = k') := fun e => h e.symm
        simpa [eraseKey, List.filter_cons, alookup, h0, h2] using ih
      · by_cases h1 : k₀ = k'
        · subst h1
          simp [eraseKey, List.filter_cons, alookup, h0]
        · simpa [eraseKey, List.filter_cons, alookup, h0, h1] using ih

theorem mapInsert_lookup_eq {α : Type} {k : String} {v : α} {m : List (String × α)}
    (h : alookup k m = some v) : mapInsert k v m = m := by
  induction m with
  | nil => simp [alookup] at h
  | cons p rest ih =>
      obtain ⟨k₀, v₀⟩ := p
      by_cases h0 : k₀ = k
      · subst h0
        simp [alookup] at h
        simp [mapInsert, h]
      · simp [alookup, h0] at h
        simp [mapInsert, h0, ih h]

theorem mapInsert_mapInsert {α : Type} (k : String) (v w : α) (m : List (String × α)) :
    mapInsert k v (mapInsert k w m) = mapInsert k v m := by
  induction m with
  | nil => simp [mapInsert]
  | cons p rest ih =>
      obtain ⟨k₀, v₀⟩ := p
      by_cases h0 : k₀ = k <;> simp [mapInsert, h0, ih]

theorem eraseKey_mapInsert_of_not_mem {α : Type} {k : String} {m : List (String × α)}
    (h : alookup k m = none) (v : α) : eraseKey k (mapInsert k v m) = m := by
  induction m with
  | nil => simp [mapInsert, eraseKey, List.filter_cons]
  | cons p rest ih =>
      obtain ⟨k₀, v₀⟩ := p
      by_cases h0 : k₀ = k
      · subst h0
        simp [alookup] at h
      · simp [alookup, h0] at h
        have h2 := ih h
        simp [eraseKey, List.filter_cons] at h2 ⊢
        simp [mapInsert, h0, List.filter_cons, h2]

theorem alookup_mem {α : Type} {k : String} {v : α} {m : List (String × α)}
    (h : alookup k m = some v) : (k, v) ∈ m := by
  induction m with
  | nil => simp [alookup] at h
  | cons p rest ih =>
      obtain ⟨k₀, v₀⟩ := p
      by_cases h0 : k₀ = k
      · subst h0
        simp [alookup] at h
        simp [h]
      · simp [alookup, h0] at h
        simp [ih h]

theorem mem_alookup_isSome {α : Type} {p : String × α} {m : List (String × α)}
    (h : p ∈ m) : (alookup p.1 m).isSome := by
  induction m with
  | nil => simp at h
  | cons q rest ih =>
      obtain ⟨k₀, v₀⟩ := q
      rcases List.mem_cons.mp h with h | h
      · subst h; simp [alookup]
      · by_cases h0 : k₀ = p.1 <;> simp [alookup, h0, ih h]

theorem getCalories_basic (n : String) (kw : List String) (c : ℚ) :
    (Food.basic n kw c).getCalories = c := by
  simp [Food.getCalories]

theorem getCalories_composite (n : String) (kw : List String) (comps : List (Food × ℚ)) :
    (Food.composite n kw comps).getCalories
      = (comps.map (fun p => p.1.getCalories * p.2)).sum := by
  rw [Food.getCalories]
  congr 1
  exact List.attach_map_val comps (fun p => p.1.getCalories * p.2)

theorem resolveFood_cached {pending : List (String × CompRecord)} {name : String}
    {st : RState} {f : Food} (h : alookup name st.foods = some f) (fuel : Nat) :
    resolveFood pending fuel name st = (some f, st) := by
  rw [resolveFood, h]

theorem resolveFood_missing {pending : List (String × CompRecord)} {name : String}
    {st : RState} (h1 : alookup name st.foods = none) (h2 : alookup name pending = none)
    (fuel : Nat) :
    resolveFood pending fuel name st
      = (none, { st with diags := st.diags ++ [Diag.foodNotFound name] }) := by
  rw [resolveFood, h1, h2]

theorem resolveFood_fuelZero {pending : List (String × CompRecord)} {name : String}
    {st : RState} {crec : CompRecord} (h1 : alookup name st.foods = none)
    (h2 : alookup name pending = some crec) :
    resolveFood pending 0 name st = (none, { st with exhausted := true }) := by
  rw [resolveFood, h1, h2]

theorem resolveFood_build {pending : List (String × CompRecord)} {name : String}
    {st : RState} {crec : CompRecord} (h1 : alookup name st.foods = none)
    (h2 : alookup name pending = some crec) (fuel' : Nat) :
    resolveFood pending (fuel' + 1) name st
      = (some (Food.composite name crec.keywords
            (crec.components.foldl (resolveComp pending fuel' name) ([], st)).1),
         { (crec.components.foldl (resolveComp pending fuel' name) ([], st)).2 with
            foods := mapInsert name
              (Food.composite name crec.keywords
                (crec.components.foldl (resolveComp pending fuel' name) ([], st)).1)
              (crec.components.foldl (resolveComp pending fuel' name) ([], st)).2.foods }) := by
  rw [resolveFood, h1, h2]
  rfl

theorem foldl_preserveP {β γ : Type} (P : γ → Prop) (φ : γ → β → γ) (l : List β)
    (h : ∀ acc b, b ∈ l → P acc → P (φ acc b)) :
    ∀ acc, P acc → P (l.foldl φ acc) := by
  induction l with
  | nil => intro acc hacc; simpa using hacc
  | cons b rest ih =>
      intro acc hacc
      simp only [List.foldl_cons]
      exact ih (fun a x hx hp => h a x (List.mem_cons_of_mem _ hx) hp) _
        (h acc b (List.mem_cons_self _ _) hacc)

theorem foldl_establishes {β γ : Type} (Q : γ → Prop) (φ : γ → β → γ) (l : List β) (b : β)
    (hb : b ∈ l) (mono : ∀ acc x, x ∈ l → Q acc → Q (φ acc x))
    (hit : ∀ acc, Q (φ acc b)) :
    ∀ acc, Q (l.foldl φ acc) := by
  induction l with
  | nil => simp at hb
  | cons x rest ih =>
      intro acc
      simp only [List.foldl_cons]
      rcases List.mem_cons.mp hb with hb' | hb'
      · subst hb'
        exact foldl_preserveP Q φ rest
          (fun a y hy hp => mono a y (List.mem_cons_of_mem _ hy) hp) _ (hit acc)
      · exact ih hb' (fun a y hy hp => mono a y (List.mem_cons_of_mem _ hy) hp) _

theorem mem_mapInsert {α : Type} {q : String × α} {k : String} {v : α}
    {m : List (String × α)} (h : q ∈ mapInsert k v m) : q = (k, v) ∨ q ∈ m := by
  induction m with
  | nil => simpa [mapInsert] using h
  | cons p rest ih =>
      obtain ⟨k₀, v₀⟩ := p
      by_cases h0 : k₀ = k
      · simp [mapInsert, h0] at h
        rcases h with h | h
        · exact Or.inl (by simp [h])
        · exact Or.inr (List.mem_cons_of_mem _ h)
      · simp only [mapInsert, if_neg h0] at h
        rcases List.mem_cons.mp h with h | h
        · exact Or.inr (by simp [h])
        · rcases ih h with h | h
          · exact Or.inl h
          · exact Or.inr (List.mem_cons_of_mem _ h)

theorem noDupKeys_mapInsert {α : Type} {m : List (String × α)} (k : String) (v : α)
    (h : NoDupKeys m) : NoDupKeys (mapInsert k v m) := by
  induction m with
  | nil => simp [mapInsert, NoDupKeys]
  | cons p rest ih =>
      obtain ⟨k₀, v₀⟩ := p
      rw [NoDupKeys, List.pairwise_cons] at h
      obtain ⟨hhead, htail⟩ := h
      by_cases h0 : k₀ = k
      · subst h0
        simp only [mapInsert, if_true, ite_true, if_pos trivial]
        rw [NoDupKeys, List.pairwise_cons]
        exact ⟨hhead, htail⟩
      · simp only [mapInsert, if_neg h0]
        rw [NoDupKeys, List.pairwise_cons]
        refine ⟨?_, ih htail⟩
        intro q hq
        rcases mem_mapInsert hq with h | h
        · subst h; exact h0
        · exact hhead q h

theorem isSome_alookup_mapInsert {α : Type} (k n : String) (v : α) (m : List (String × α))
    (h : (alookup n m).isSome) : (alookup n (mapInsert k v m)).isSome := by
  by_cases h0 : n = k
  · subst h0; simp [alookup_mapInsert_self]
  · rwa [alookup_mapInsert_ne h0]

/-- C1: for every composite food, `getCalories` returns the sum over its
immediate components of the component's (recursively computed) calories
times its servings; in particular the Burrito built over Rice (200 cal) and
Beans (150 cal) with servings 2 and 1 yields 550, both as a direct
`CompositeFood` value and as resolved from the spec's catalog records. -/
theorem composite_calories_are_component_sums :
    (∀ (n : String) (kw : List String) (comps : List (Food × ℚ)),
        (Food.composite n kw comps).getCalories
          = (comps.map (fun p => p.1.getCalories * p.2)).sum) ∧
    (Food.composite "Burrito" ["mexican"]
        [(Food.basic "Rice" ["grain"] 200, 2),
         (Food.basic "Beans" ["protein"] 150, 1)]).getCalories = 550 ∧
    (∃ b, alookup "Burrito" (loadDatabase burritoRecords 5).foods = some b ∧
      b.getCalories = 550) := by
  refine ⟨getCalories_composite, ?_, ?_⟩
  · rw [getCalories_composite]
    simp [getCalories_basic]
    norm_num
  · refine ⟨Food.composite "Burrito" ["mexican"]
      [(Food.basic "Rice" ["grain"] 200, 2), (Food.basic "Beans" ["protein"] 150, 1)],
      rfl, ?_⟩
    rw [getCalories_composite]
    simp [getCalories_basic]
    norm_num

/-- C8: the `AddFoodCommand` constructor snapshots
`calories = food.getCalories() * servings` when the food is found in the
catalog and `calories = 0` when the lookup fails; construction always
succeeds. -/
theorem addCommand_snapshots_calories (db : FoodDatabaseManager) (date foodName : String)
    (servings : ℚ) :
    (∀ f, getFood db foodName = some f →
        (mkAddCmd db date foodName servings).calories = f.getCalories * servings) ∧
    (getFood db foodName = none → (mkAddCmd db date foodName servings).calories = 0) := by
  constructor
  · intro f hf
    simp [mkAddCmd, hf]
  · intro hf
    simp [mkAddCmd, hf]

theorem addCommand_snapshots_calories_witness :
    (mkAddCmd riceDb "2024-01-01" "Rice" (3 / 2)).calories = 300 ∧
    (mkAddCmd riceDb "2024-01-01" "Tofu" 2).calories = 0 := by
  constructor
  · have h := (addCommand_snapshots_calories riceDb "2024-01-01" "Rice" (3 / 2)).1
      (Food.basic "Rice" ["grain"] 200) rfl
    rw [h, getCalories_basic]
    norm_num
  · exact (addCommand_snapshots_calories riceDb "2024-01-01" "Tofu" 2).2 rfl

/-- C9: `FoodDiary::undo` on an empty stack prints "Nothing to undo." and
changes neither the daily logs nor the stack; on a non-empty stack it pops
exactly the most recently pushed command and runs that command's `undo`. -/
theorem undo_empty_stack_is_noop (st : FoodDiaryState) :
    (st.undoStack = [] → diaryUndo st = (st, UndoReport.message "Nothing to undo.")) ∧
    (∀ c rest, st.undoStack = c :: rest →
        diaryUndo st =
          ({ dailyLogs := commandUndo c st.dailyLogs, undoStack := rest },
           UndoReport.undone c)) := by
  constructor
  · intro h
    obtain ⟨logs, stk⟩ := st
    simp at h
    subst h
    rfl
  · intro c rest h
    obtain ⟨logs, stk⟩ := st
    simp at h
    subst h
    rfl

theorem undo_empty_stack_is_noop_witness :
    diaryUndo ⟨twoEntryLogs, []⟩
      = (⟨twoEntryLogs, []⟩, UndoReport.message "Nothing to undo.") ∧
    diaryUndo ⟨twoEntryLogs, [DiaryCommand.del ⟨"2024-01-01", 0, ⟨"Rice", 1, 200⟩⟩]⟩
      = (⟨commandUndo (DiaryCommand.del ⟨"2024-01-01", 0, ⟨"Rice", 1, 200⟩⟩) twoEntryLogs, []⟩,
         UndoReport.undone (DiaryCommand.del ⟨"2024-01-01", 0, ⟨"Rice", 1, 200⟩⟩)) :=
  ⟨(undo_empty_stack_is_noop ⟨twoEntryLogs, []⟩).1 rfl,
   (undo_empty_stack_is_noop
      ⟨twoEntryLogs, [DiaryCommand.del ⟨"2024-01-01", 0, ⟨"Rice", 1, 200⟩⟩]⟩).2
      (DiaryCommand.del ⟨"2024-01-01", 0, ⟨"Rice", 1, 200⟩⟩) [] rfl⟩

/-- C10: `FoodDatabaseManager::addFood` refuses a food whose name is already
bound — it returns `false` and leaves the manager untouched — and every add
operation preserves name-uniqueness of the catalog. -/
theorem addFood_preserves_name_uniqueness (db : FoodDatabaseManager) (f : Food) :
    (∀ g, alookup f.name db.foods = some g → addFood db f = (false, db)) ∧
    (NoDupKeys db.foods → NoDupKeys (addFood db f).2.foods) := by
  constructor
  · intro g hg
    simp [addFood, hg]
  · intro hnd
    cases hl : alookup f.name db.foods with
    | some g => simpa [addFood, hl] using hnd
    | none =>
        simp only [addFood, hl]
        exact noDupKeys_mapInsert f.name f hnd

theorem addFood_preserves_name_uniqueness_witness :
    addFood riceDb (Food.basic "Rice" [] 7) = (false, riceDb) ∧
    NoDupKeys (addFood riceDb (Food.basic "Tofu" [] 9)).2.foods := by
  constructor
  · exact (addFood_preserves_name_uniqueness riceDb (Food.basic "Rice" [] 7)).1
      (Food.basic "Rice" ["grain"] 200) rfl
  · exact (addFood_preserves_name_uniqueness riceDb (Food.basic "Tofu" [] 9)).2
      (by simp [riceDb, NoDupKeys])

/-- C5: `loadCompositeFood` is memoized — resolving an already-resolved name
returns the cached instance and leaves the state untouched; a successful
resolution caches its result under the resolved name, so any later
resolution of the same name returns that very instance with no further
state change. -/
theorem resolve_is_memoized (pending : List (String × CompRecord)) (fuel : Nat)
    (name : String) (st : RState) :
    (∀ f, alookup name st.foods = some f →
        resolveFood pending fuel name st = (some f, st)) ∧
    (∀ f st', resolveFood pending fuel name st = (some f, st') →
        alookup name st'.foods = some f) ∧
    (∀ f st' fuel₂, resolveFood pending fuel name st = (some f, st') →
        resolveFood pending fuel₂ name st' = (some f, st')) := by
  have hcache : ∀ f st', resolveFood pending fuel name st = (some f, st') →
      alookup name st'.foods = some f := by
    intro f st' hres
    cases hf : alookup name st.foods with
    | some g =>
        rw [resolveFood_cached hf] at hres
        obtain ⟨h1, h2⟩ := Prod.mk.injEq .. ▸ hres
        cases hres
        exact hf
    | none =>
        cases hp : alookup name pending with
        | none =>
            rw [resolveFood_missing hf hp] at hres
            cases hres
        | some crec =>
            cases fuel with
            | zero =>
                rw [resolveFood_fuelZero hf hp] at hres
                cases hres
            | succ fuel' =>
                rw [resolveFood_build hf hp] at hres
                simp only at hres
                obtain ⟨h1, h2⟩ := Prod.mk.injEq .. ▸ hres
                cases hres
                exact alookup_mapInsert_self ..
  refine ⟨fun f hf => resolveFood_cached hf fuel, hcache, ?_⟩
  intro f st' fuel₂ hres
  exact resolveFood_cached (hcache f st' hres) fuel₂

theorem resolve_is_memoized_witness :
    resolveFood [] 3 "Rice" ⟨[("Rice", Food.basic "Rice" ["grain"] 200)], [], false⟩
      = (some (Food.basic "Rice" ["grain"] 200),
         ⟨[("Rice", Food.basic "Rice" ["grain"] 200)], [], false⟩) :=
  (resolve_is_memoized [] 3 "Rice" ⟨[("Rice", Food.basic "Rice" ["grain"] 200)], [], false⟩).1
    (Food.basic "Rice" ["grain"] 200) rfl

theorem diaryMatchLoop_all (f : Food) (kws : List String) :
    ∀ acc : Bool, diaryMatchLoop f true kws acc
      = (acc && kws.all (fun kw => kwMatchesDiary kw f)) := by
  induction kws with
  | nil => intro acc; simp [diaryMatchLoop]
  | cons kw rest ih =>
      intro acc
      simp [diaryMatchLoop, ih, Bool.and_assoc]

theorem diaryMatchLoop_any (f : Food) (kws : List String) :
    ∀ acc : Bool, diaryMatchLoop f false kws acc
      = (acc || kws.any (fun kw => kwMatchesDiary kw f)) := by
  induction kws with
  | nil => intro acc; simp [diaryMatchLoop]
  | cons kw rest ih =>
      intro acc
      by_cases hk : kwMatchesDiary kw f
      · simp [diaryMatchLoop, hk]
      · simp only [Bool.not_eq_true] at hk
        simp [diaryMatchLoop, hk, ih]

/-- C3 counterexample: in `FoodDatabaseManager::searchFoodsByKeywords`
(food.cpp) the food name is never consulted.  For the one-food catalog
`riceDb` and the single keyword "rice", the lowered keyword is a substring
of the lowered name "Rice", so the claim says the food is returned in "any"
mode — but the search returns the empty list. -/
theorem searchDB_ignores_name :
    ¬ (Food.basic "Rice" ["grain"] 200 ∈ searchFoodsByKeywordsDB riceDb.foods ["rice"] false ↔
        ∃ kw ∈ ["rice"],
          (containsSub (lowerStr kw) (lowerStr (Food.basic "Rice" ["grain"] 200).name)
            || (Food.basic "Rice" ["grain"] 200).keywords.any
                (fun fk => containsSub (lowerStr kw) (lowerStr fk))) = true) := by
  intro h
  have hR : ∃ kw ∈ ["rice"],
      (containsSub (lowerStr kw) (lowerStr (Food.basic "Rice" ["grain"] 200).name)
        || (Food.basic "Rice" ["grain"] 200).keywords.any
            (fun fk => containsSub (lowerStr kw) (lowerStr fk))) = true := by
    refine ⟨"rice", by simp, by decide⟩
  have hL := h.mpr hR
  have hempty : searchFoodsByKeywordsDB riceDb.foods ["rice"] false = [] := rfl
  rw [hempty] at hL
  simp at hL

/-- C3 amended: both search routines do case-insensitive substring matching
with "all"/"any" modes, but they differ in the matched fields:
`FoodDatabaseManager::searchFoodsByKeywords` (food.cpp) matches a keyword
only against the food's keywords, while `FoodDiary::searchFoodsByKeywords`
(log.cpp) matches against the keywords or the name.  In both, "all" mode
returns a food iff every keyword matches and "any" mode iff at least one
does. -/
theorem search_mode_characterization (foods : List (String × Food)) (kws : List String)
    (f : Food) (name : String) (matchall : Bool) :
    (f ∈ searchFoodsByKeywordsDB foods kws matchall ↔
      ∃ p ∈ foods, p.2 = f ∧
        (if matchall then ∀ kw ∈ kws, kwMatchesDB kw p.2 = true
         else ∃ kw ∈ kws, kwMatchesDB kw p.2 = true)) ∧
    (name ∈ searchFoodsByKeywordsDiary foods kws matchall ↔
      ∃ p ∈ foods, p.1 = name ∧
        (if matchall then ∀ kw ∈ kws, kwMatchesDiary kw p.2 = true
         else ∃ kw ∈ kws, kwMatchesDiary kw p.2 = true)) := by
  have hiff : ∀ p : String × Food,
      ((matchall && (kws.countP (fun kw => kwMatchesDB kw p.2) == kws.length))
        || (!matchall && decide (0 < kws.countP (fun kw => kwMatchesDB kw p.2)))) = true
      ↔ (if matchall then ∀ kw ∈ kws, kwMatchesDB kw p.2 = true
         else ∃ kw ∈ kws, kwMatchesDB kw p.2 = true) := by
    intro p
    cases matchall with
    | true =>
        simp only [Bool.true_and, Bool.not_true, Bool.false_and, Bool.or_false, if_true]
        rw [beq_iff_eq, List.countP_eq_length]
    | false =>
        simp only [Bool.false_and, Bool.not_false, Bool.true_and, Bool.false_or, if_false]
        rw [decide_eq_true_eq]
        exact List.countP_pos_iff
  constructor
  · simp only [searchFoodsByKeywordsDB, List.mem_map, List.mem_filter]
    constructor
    · rintro ⟨p, ⟨hp, hcond⟩, hpf⟩
      exact ⟨p, hp, hpf, (hiff p).mp hcond⟩
    · rintro ⟨p, hp, hpf, hcond⟩
      exact ⟨p, ⟨hp, (hiff p).mpr hcond⟩, hpf⟩
  · simp only [searchFoodsByKeywordsDiary, List.mem_map, List.mem_filter]
    constructor
    · rintro ⟨p, ⟨hp, hcond⟩, hpn⟩
      refine ⟨p, hp, hpn, ?_⟩
      cases matchall with
      | true =>
          rw [diaryMatchLoop_all, Bool.true_and, List.all_eq_true] at hcond
          simpa using hcond
      | false =>
          rw [diaryMatchLoop_any, Bool.false_or, List.any_eq_true] at hcond
          simpa using hcond
    · rintro ⟨p, hp, hpn, hcond⟩
      refine ⟨p, ⟨hp, ?_⟩, hpn⟩
      cases matchall with
      | true =>
          rw [diaryMatchLoop_all, Bool.true_and, List.all_eq_true]
          simpa using hcond
      | false =>
          rw [diaryMatchLoop_any, Bool.false_or, List.any_eq_true]
          simpa using hcond

theorem alookup_of_entriesOn_ne_nil {m : DailyLogs} {d : String}
    (h : entriesOn m d ≠ []) : alookup d m = some (entriesOn m d) := by
  unfold entriesOn at *
  cases hl : alookup d m with
  | none => rw [hl] at h; simp at h
  | some l => simp [hl]

theorem touchDate_of_some {m : DailyLogs} {d : String} (h : (alookup d m).isSome) :
    touchDate d m = m := by
  unfold touchDate
  cases hl : alookup d m with
  | none => rw [hl] at h; simp at h
  | some l => rfl

theorem entriesOn_eq_nil_of_none {m : DailyLogs} {d : String} (h : alookup d m = none) :
    entriesOn m d = [] := by
  simp [entriesOn, h]

theorem mkDelCmd_captured {m : DailyLogs} {d : String} {i : Nat}
    (h : i < (entriesOn m d).length) :
    (mkDelCmd m d i).captured = (entriesOn m d).get ⟨i, h⟩ := by
  simp [mkDelCmd, List.getElem?_eq_getElem h]

theorem entriesOn_delExec_self (m : DailyLogs) (d : String) (i : Nat) (cap : FoodEntry)
    (h : i < (entriesOn m d).length) :
    entriesOn (delExec ⟨d, i, cap⟩ m) d = (entriesOn m d).eraseIdx i := by
  have hne : entriesOn m d ≠ [] := by
    intro he
    rw [he] at h
    simp at h
  have hsome : alookup d m = some (entriesOn m d) := alookup_of_entriesOn_ne_nil hne
  unfold delExec
  simp only [touchDate_of_some (by simp [hsome] : (alookup d m).isSome)]
  simp only [if_pos h]
  by_cases he : ((entriesOn m d).eraseIdx i).isEmpty
  · rw [if_pos he]
    rw [List.isEmpty_iff] at he
    rw [he, entriesOn_eq_nil_of_none (alookup_eraseKey_self d m)]
  · rw [if_neg he]
    simp [entriesOn, alookup_mapInsert_self]

theorem entriesOn_delExec_other (m : DailyLogs) (d : String) (i : Nat) (cap : FoodEntry)
    {d' : String} (hd : d' ≠ d) :
    entriesOn (delExec ⟨d, i, cap⟩ m) d' = entriesOn m d' := by
  unfold delExec touchDate
  cases hl : alookup d m with
  | none =>
      simp only [entriesOn, alookup_mapInsert_ne hd]
      split
      · split
        · rw [alookup_eraseKey_ne hd, alookup_mapInsert_ne hd]
        · rw [alookup_mapInsert_ne hd, alookup_mapInsert_ne hd]
      · rw [alookup_mapInsert_ne hd]
  | some l =>
      simp only [entriesOn]
      split
      · split
        · rw [alookup_eraseKey_ne hd]
        · rw [alookup_mapInsert_ne hd]
      · rfl

theorem entriesOn_removeExecL1_self (m : DailyLogs) (d : String) (i : Nat) (cap : FoodEntry)
    (h : i < (entriesOn m d).length) :
    entriesOn (removeExecL1 ⟨d, i, cap⟩ m) d = (entriesOn m d).eraseIdx i := by
  have hne : entriesOn m d ≠ [] := by
    intro he
    rw [he] at h
    simp at h
  have hsome : alookup d m = some (entriesOn m d) := alookup_of_entriesOn_ne_nil hne
  unfold removeExecL1
  have hguard : ((alookup d m).isSome && decide (i < (entriesOn m d).length)) = true := by
    simp [hsome, h]
  simp only
  rw [if_pos hguard]
  by_cases he : ((entriesOn m d).eraseIdx i).isEmpty
  · rw [if_pos he]
    rw [List.isEmpty_iff] at he
    rw [he, entriesOn_eq_nil_of_none (alookup_eraseKey_self d m)]
  · rw [if_neg he]
    simp [entriesOn, alookup_mapInsert_self]

theorem vecInsert_eraseIdx :
    ∀ (l : List FoodEntry) (i : Nat) (h : i < l.length),
      vecInsert i (l.get ⟨i, h⟩) (l.eraseIdx i) = l := by
  intro l
  induction l with
  | nil => intro i h; simp at h
  | cons x xs ih =>
      intro i h
      cases i with
      | zero => rfl
      | succ i =>
          have h' : i < xs.length := by simpa using h
          simp only [List.eraseIdx_cons_succ, List.get_cons_succ, vecInsert]
          rw [ih i h']

/-- C7 counterexample: for `DailyFoodLog::RemoveFoodCommand` (logs1.cpp),
deleting index 0 of a two-entry date and undoing restores the entry at its
original index 0 — the result differs from appending the captured entry to
the end of the post-delete sequence, so the claim's "re-appends to the end,
not at the original index" is false for this cited symbol. -/
theorem removeUndo_restores_original_index :
    entriesOn (removeUndoL1 (mkDelCmd twoEntryLogs "2024-01-01" 0)
        (removeExecL1 (mkDelCmd twoEntryLogs "2024-01-01" 0) twoEntryLogs)) "2024-01-01"
      = [⟨"Rice", 1, 200⟩, ⟨"Beans", 2, 300⟩] ∧
    entriesOn (removeUndoL1 (mkDelCmd twoEntryLogs "2024-01-01" 0)
        (removeExecL1 (mkDelCmd twoEntryLogs "2024-01-01" 0) twoEntryLogs)) "2024-01-01"
      ≠ entriesOn (removeExecL1 (mkDelCmd twoEntryLogs "2024-01-01" 0) twoEntryLogs)
            "2024-01-01"
          ++ [(mkDelCmd twoEntryLogs "2024-01-01" 0).captured] := by
  constructor <;> decide

/-- C7 amended: after executing a valid delete, `FoodDiary::
DeleteFoodCommand::undo` (food.cpp) re-appends the captured entry to the END
of the date's sequence, whereas `DailyFoodLog::RemoveFoodCommand::undo`
(logs1.cpp) re-inserts it at its ORIGINAL index, restoring the sequence
exactly. -/
theorem delete_undo_insert_positions (m : DailyLogs) (d : String) (i : Nat)
    (h : i < (entriesOn m d).length) :
    entriesOn (delUndo (mkDelCmd m d i) (delExec (mkDelCmd m d i) m)) d
      = (entriesOn m d).eraseIdx i ++ [(entriesOn m d).get ⟨i, h⟩] ∧
    entriesOn (removeUndoL1 (mkDelCmd m d i) (removeExecL1 (mkDelCmd m d i) m)) d
      = entriesOn m d := by
  have hcap := mkDelCmd_captured h
  constructor
  · have hexec : entriesOn (delExec (mkDelCmd m d i) m) d = (entriesOn m d).eraseIdx i :=
      entriesOn_delExec_self m d i _ h
    unfold delUndo
    simp only [mkDelCmd] at hexec hcap ⊢
    rw [hexec, hcap]
    simp [entriesOn, alookup_mapInsert_self]
  · have hexec : entriesOn (removeExecL1 (mkDelCmd m d i) m) d
        = (entriesOn m d).eraseIdx i :=
      entriesOn_removeExecL1_self m d i _ h
    unfold removeUndoL1
    simp only [mkDelCmd] at hexec hcap ⊢
    rw [hexec, hcap]
    simp only [entriesOn, alookup_mapInsert_self, Option.getD_some]
    exact vecInsert_eraseIdx (entriesOn m d) i h

theorem delete_undo_insert_positions_witness :
    1 < (entriesOn twoEntryLogs "2024-01-01").length ∧
    (entriesOn (delUndo (mkDelCmd twoEntryLogs "2024-01-01" 1)
        (delExec (mkDelCmd twoEntryLogs "2024-01-01" 1) twoEntryLogs)) "2024-01-01"
      = (entriesOn twoEntryLogs "2024-01-01").eraseIdx 1
          ++ [(entriesOn twoEntryLogs "2024-01-01").get ⟨1, by decide⟩] ∧
    entriesOn (removeUndoL1 (mkDelCmd twoEntryLogs "2024-01-01" 1)
        (removeExecL1 (mkDelCmd twoEntryLogs "2024-01-01" 1) twoEntryLogs)) "2024-01-01"
      = entriesOn twoEntryLogs "2024-01-01") :=
  ⟨by decide, delete_undo_insert_positions twoEntryLogs "2024-01-01" 1 (by decide)⟩

theorem selfEntry_matches (c : AddCmd) :
    undoMatches c ⟨c.foodName, c.servings, c.calories⟩ = true := by
  simp [undoMatches]

theorem addUndo_addExec_entries (m : DailyLogs) (c : AddCmd) :
    addUndo c (addExec c m)
      = (if (entriesOn m c.date).isEmpty
         then eraseKey c.date (addExec c m)
         else mapInsert c.date (entriesOn m c.date) (addExec c m)) := by
  have h1 : alookup c.date (addExec c m)
      = some (entriesOn m c.date ++ [⟨c.foodName, c.servings, c.calories⟩]) := by
    unfold addExec
    exact alookup_mapInsert_self ..
  have h2 : entriesOn (addExec c m) c.date
      = entriesOn m c.date ++ [⟨c.foodName, c.servings, c.calories⟩] := by
    simp [entriesOn, h1]
  have h4 : (removeFirst (undoMatches c)
      (entriesOn m c.date
        ++ [({ foodName := c.foodName, servings := c.servings, calories := c.calories }
              : FoodEntry)]).reverse).reverse
      = entriesOn m c.date := by
    rw [List.reverse_append, List.reverse_singleton, List.singleton_append, removeFirst,
      if_pos (selfEntry_matches c), List.reverse_reverse]
  have h5 : (entriesOn m c.date
      ++ [({ foodName := c.foodName, servings := c.servings, calories := c.calories }
            : FoodEntry)]).isEmpty = false := by
    simp [List.isEmpty_iff]
  unfold addUndo
  rw [touchDate_of_some (by simp [h1])]
  simp only [h2, h5, Bool.false_eq_true, if_false, h4]

theorem entriesOn_addUndo_addExec (m : DailyLogs) (c : AddCmd) (d' : String) :
    entriesOn (addUndo c (addExec c m)) d' = entriesOn m d' := by
  rw [addUndo_addExec_entries]
  by_cases hl : (entriesOn m c.date).isEmpty
  · rw [if_pos hl]
    by_cases hd : d' = c.date
    · subst hd
      rw [entriesOn_eq_nil_of_none (alookup_eraseKey_self ..), List.isEmpty_iff.mp hl]
    · unfold entriesOn
      rw [alookup_eraseKey_ne hd]
      unfold addExec
      rw [alookup_mapInsert_ne hd]
  · rw [if_neg hl]
    by_cases hd : d' = c.date
    · subst hd
      simp [entriesOn, alookup_mapInsert_self]
    · unfold entriesOn
      rw [alookup_mapInsert_ne hd]
      unfold addExec
      rw [alookup_mapInsert_ne hd]

theorem addUndo_addExec_exact {m : DailyLogs} (c : AddCmd)
    (hwf : alookup c.date m ≠ some []) : addUndo c (addExec c m) = m := by
  rw [addUndo_addExec_entries]
  cases hl : alookup c.date m with
  | none =>
      have h0 : entriesOn m c.date = [] := by simp [entriesOn, hl]
      rw [if_pos (by simp [h0])]
      unfold addExec
      exact eraseKey_mapInsert_of_not_mem hl _
  | some l =>
      have hlne : l ≠ [] := fun h => hwf (by rw [hl, h])
      have h0 : entriesOn m c.date = l := by simp [entriesOn, hl]
      rw [if_neg (by simp [h0, hlne])]
      unfold addExec
      rw [mapInsert_mapInsert, h0]
      exact mapInsert_lookup_eq hl

theorem perm_eraseIdx_append_get :
    ∀ (l : List FoodEntry) (i : Nat) (h : i < l.length),
      (l.eraseIdx i ++ [l.get ⟨i, h⟩]).Perm l := by
  intro l
  induction l with
  | nil => intro i h; simp at h
  | cons x xs ih =>
      intro i h
      cases i with
      | zero =>
          simp only [List.eraseIdx_cons_zero, List.get_cons_zero]
          exact List.perm_append_singleton x xs
      | succ i =>
          have h' : i < xs.length := by simpa using h
          simp only [List.eraseIdx_cons_succ, List.get_cons_succ, List.cons_append]
          exact (ih i h').cons x

theorem entriesOn_delUndo_delExec_self (m : DailyLogs) (d : String) (i : Nat)
    (h : i < (entriesOn m d).length) :
    entriesOn (delUndo (mkDelCmd m d i) (delExec (mkDelCmd m d i) m)) d
      = (entriesOn m d).eraseIdx i ++ [(entriesOn m d).get ⟨i, h⟩] := by
  have hcap := mkDelCmd_captured h
  have hexec : entriesOn (delExec (mkDelCmd m d i) m) d = (entriesOn m d).eraseIdx i :=
    entriesOn_delExec_self m d i _ h
  unfold delUndo
  simp only [mkDelCmd] at hexec hcap ⊢
  rw [hexec, hcap]
  simp [entriesOn, alookup_mapInsert_self]

theorem entriesOn_delUndo_other {d' : String} (c : DelCmd) (m : DailyLogs)
    (hd : d' ≠ c.date) : entriesOn (delUndo c m) d' = entriesOn m d' := by
  unfold delUndo entriesOn
  rw [alookup_mapInsert_ne hd]

/-- C2: executing an `AddFoodCommand` or a validly-indexed
`DeleteFoodCommand` of food.cpp and immediately undoing it restores the
ledger's observable state: per-date entry sequences for Add (and, when no
date maps to an empty vector, the exact ledger value, so a freshly created
date key is removed entirely); per-date entry multisets and calorie totals
for Delete (the order exception of C7 applies).  In particular, Add "Rice"
servings 1.5 on "2024-01-01" in an empty ledger gives the date total 300,
and Undo removes the date key entirely. -/
theorem execute_undo_restores_ledger :
    (∀ (m : DailyLogs) (c : AddCmd) (d' : String),
        entriesOn (addUndo c (addExec c m)) d' = entriesOn m d' ∧
        dateTotal (addUndo c (addExec c m)) d' = dateTotal m d') ∧
    (∀ (m : DailyLogs) (c : AddCmd), alookup c.date m ≠ some [] →
        addUndo c (addExec c m) = m) ∧
    (∀ (m : DailyLogs) (d : String) (i : Nat), i < (entriesOn m d).length →
      ∀ d' : String,
        (↑(entriesOn (delUndo (mkDelCmd m d i) (delExec (mkDelCmd m d i) m)) d')
            : Multiset FoodEntry) = ↑(entriesOn m d') ∧
        dateTotal (delUndo (mkDelCmd m d i) (delExec (mkDelCmd m d i) m)) d'
          = dateTotal m d') ∧
    (dateTotal (addExec (mkAddCmd riceDb "2024-01-01" "Rice" (3 / 2)) []) "2024-01-01"
        = 300 ∧
     addUndo (mkAddCmd riceDb "2024-01-01" "Rice" (3 / 2))
        (addExec (mkAddCmd riceDb "2024-01-01" "Rice" (3 / 2)) []) = [] ∧
     alookup "2024-01-01"
        (addUndo (mkAddCmd riceDb "2024-01-01" "Rice" (3 / 2))
          (addExec (mkAddCmd riceDb "2024-01-01" "Rice" (3 / 2)) [])) = none) := by
  have hundo : addUndo (mkAddCmd riceDb "2024-01-01" "Rice" (3 / 2))
      (addExec (mkAddCmd riceDb "2024-01-01" "Rice" (3 / 2)) []) = [] :=
    addUndo_addExec_exact _ (by simp [alookup, mkAddCmd])
  refine ⟨?_, fun m c h => addUndo_addExec_exact c h, ?_, ?_, hundo, ?_⟩
  · intro m c d'
    refine ⟨entriesOn_addUndo_addExec m c d', ?_⟩
    unfold dateTotal
    rw [entriesOn_addUndo_addExec m c d']
  · intro m d i h d'
    by_cases hd : d' = d
    · subst hd
      have hperm : (entriesOn (delUndo (mkDelCmd m d' i) (delExec (mkDelCmd m d' i) m))
          d').Perm (entriesOn m d') := by
        rw [entriesOn_delUndo_delExec_self m d' i h]
        exact perm_eraseIdx_append_get (entriesOn m d') i h
      refine ⟨Multiset.coe_eq_coe.mpr hperm, ?_⟩
      unfold dateTotal
      exact (hperm.map (fun e => e.calories)).sum_eq
    · have hothers : entriesOn (delUndo (mkDelCmd m d i) (delExec (mkDelCmd m d i) m)) d'
          = entriesOn m d' := by
        rw [entriesOn_delUndo_other _ _ (by simpa [mkDelCmd] using hd)]
        exact entriesOn_delExec_other m d i _ hd
      refine ⟨by rw [hothers], ?_⟩
      unfold dateTotal
      rw [hothers]
  · norm_num [dateTotal, addExec, entriesOn, mkAddCmd, getFood, riceDb, alookup,
      mapInsert, getCalories_basic]
  · rw [hundo]
    rfl

theorem execute_undo_restores_ledger_witness :
    0 < (entriesOn twoEntryLogs "2024-01-01").length ∧
    ((↑(entriesOn (delUndo (mkDelCmd twoEntryLogs "2024-01-01" 0)
          (delExec (mkDelCmd twoEntryLogs "2024-01-01" 0) twoEntryLogs)) "2024-01-01")
        : Multiset FoodEntry) = ↑(entriesOn twoEntryLogs "2024-01-01")) :=
  ⟨by decide,
   (execute_undo_restores_ledger.2.2.1 twoEntryLogs "2024-01-01" 0 (by decide)
      "2024-01-01").1⟩

theorem stateLe_rfl (s : RState) : StateLe s s :=
  ⟨fun h => h, fun _ h => h, fun _ h => h⟩

theorem stateLe_trans {s t u : RState} (h1 : StateLe s t) (h2 : StateLe t u) : StateLe s u :=
  ⟨fun h => h2.1 (h1.1 h), fun x hx => h2.2.1 x (h1.2.1 x hx),
   fun n hn => h2.2.2 n (h1.2.2 n hn)⟩

theorem stateLe_diagAppend (s : RState) (ds : List Diag) :
    StateLe s { s with diags := s.diags ++ ds } :=
  ⟨fun h => h, fun _ hx => List.mem_append_left ds hx, fun _ hn => hn⟩

theorem stateLe_exhaust (s : RState) : StateLe s { s with exhausted := true } :=
  ⟨fun _ => rfl, fun _ hx => hx, fun _ hn => hn⟩

theorem stateLe_insert (s : RState) (k : String) (v : Food) :
    StateLe s { s with foods := mapInsert k v s.foods } :=
  ⟨fun h => h, fun _ hx => hx, fun n hn => isSome_alookup_mapInsert k n v s.foods hn⟩

theorem resolveFood_mono (pending : List (String × CompRecord)) :
    ∀ (fuel : Nat) (name : String) (st : RState),
      StateLe st (resolveFood pending fuel name st).2 := by
  intro fuel
  induction fuel using Nat.strong_induction_on with
  | _ fuel IH =>
    intro name st
    cases hf : alookup name st.foods with
    | some f =>
        rw [resolveFood_cached hf]
        exact stateLe_rfl st
    | none =>
      cases hp : alookup name pending with
      | none =>
          rw [resolveFood_missing hf hp]
          exact stateLe_diagAppend st _
      | some crec =>
        cases fuel with
        | zero =>
            rw [resolveFood_fuelZero hf hp]
            exact stateLe_exhaust st
        | succ fuel' =>
          rw [resolveFood_build hf hp]
          have hfold : ∀ acc : List (Food × ℚ) × RState, StateLe st acc.2 →
              StateLe st (crec.components.foldl (resolveComp pending fuel' name) acc).2 := by
            intro acc hacc
            refine foldl_preserveP (fun a : List (Food × ℚ) × RState => StateLe st a.2)
              (resolveComp pending fuel' name) crec.components ?_ acc hacc
            intro a cc _ ha
            cases hl : alookup cc.name a.2.foods with
            | some f =>
                simp only [resolveComp, hl]
                exact ha
            | none =>
                simp only [resolveComp, hl]
                have hr := IH fuel' (Nat.lt_succ_self fuel') cc.name a.2
                cases hres : resolveFood pending fuel' cc.name a.2 with
                | mk fOpt st₁ =>
                    rw [hres] at hr
                    cases fOpt with
                    | some f =>
                        simp only
                        exact stateLe_trans ha hr
                    | none =>
                        simp only
                        exact stateLe_trans ha (stateLe_trans hr (stateLe_diagAppend st₁ _))
          exact stateLe_trans (hfold ([], st) (stateLe_rfl st)) (stateLe_insert _ name _)

theorem resolveFood_no_exhaust (pending : List (String × CompRecord)) (rank : String → Nat)
    (Hrank : ∀ p ∈ pending, ∀ cc ∈ (p.2 : CompRecord).components,
        (alookup cc.name pending).isSome = true → rank cc.name < rank p.1) :
    ∀ (fuel : Nat) (name : String) (st : RState), st.exhausted = false →
      (∀ crec, alookup name pending = some crec → rank name < fuel) →
      (resolveFood pending fuel name st).2.exhausted = false := by
  intro fuel
  induction fuel using Nat.strong_induction_on with
  | _ fuel IH =>
    intro name st hst hrk
    cases hf : alookup name st.foods with
    | some f =>
        rw [resolveFood_cached hf]
        exact hst
    | none =>
      cases hp : alookup name pending with
      | none =>
          rw [resolveFood_missing hf hp]
          exact hst
      | some crec =>
        have hlt := hrk crec hp
        cases fuel with
        | zero => omega
        | succ fuel' =>
          rw [resolveFood_build hf hp]
          have hmem : (name, crec) ∈ pending := alookup_mem hp
          have hfold : ∀ acc : List (Food × ℚ) × RState, acc.2.exhausted = false →
              (crec.components.foldl (resolveComp pending fuel' name) acc).2.exhausted
                = false := by
            intro acc hacc
            refine foldl_preserveP
              (fun a : List (Food × ℚ) × RState => a.2.exhausted = false)
              (resolveComp pending fuel' name) crec.components ?_ acc hacc
            intro a cc hcc ha
            cases hl : alookup cc.name a.2.foods with
            | some f =>
                simp only [resolveComp, hl]
                exact ha
            | none =>
                simp only [resolveComp, hl]
                have hsub : ∀ crec', alookup cc.name pending = some crec' →
                    rank cc.name < fuel' := by
                  intro crec' hcc'
                  have hs : (alookup cc.name pending).isSome = true := by rw [hcc']; rfl
                  have h2 : rank cc.name < rank name := Hrank (name, crec) hmem cc hcc hs
                  omega
                have hr := IH fuel' (Nat.lt_succ_self fuel') cc.name a.2 ha hsub
                cases hres : resolveFood pending fuel' cc.name a.2 with
                | mk fOpt st₁ =>
                    rw [hres] at hr
                    cases fOpt with
                    | some f => exact hr
                    | none => exact hr
          exact hfold ([], st) hst

/-- C6: when the component-reference graph of the pending composites is
acyclic — witnessed by a rank function that strictly decreases from a
composite to each of its pending components — resolution of every pending
name is a finite computation: with any fuel exceeding the rank of every
pending name, `loadDatabase` never exhausts its fuel (each name is memoized
and the recursion only descends along strictly rank-decreasing pending
references). -/
theorem acyclic_resolution_terminates (records : List RawRecord) (rank : String → Nat)
    (fuel : Nat)
    (Hrank : ∀ p ∈ (firstPass records).2, ∀ cc ∈ (p.2 : CompRecord).components,
        (alookup cc.name (firstPass records).2).isSome = true → rank cc.name < rank p.1)
    (Hfuel : ∀ p ∈ (firstPass records).2, rank p.1 < fuel) :
    (loadDatabase records fuel).exhausted = false := by
  show ((firstPass records).2.foldl
      (fun s p => (resolveFood (firstPass records).2 fuel p.1 s).2)
      { foods := (firstPass records).1, diags := [], exhausted := false }).exhausted = false
  refine foldl_preserveP (fun st : RState => st.exhausted = false)
    (fun s p => (resolveFood (firstPass records).2 fuel p.1 s).2) (firstPass records).2
    ?_ { foods := (firstPass records).1, diags := [], exhausted := false } rfl
  intro s p hploc hs
  exact resolveFood_no_exhaust (firstPass records).2 rank Hrank fuel p.1 s hs
    (fun crec hcrec => Hfuel p hploc)

theorem acyclic_resolution_terminates_witness :
    (∀ p ∈ (firstPass burritoRecords).2, ∀ cc ∈ (p.2 : CompRecord).components,
        (alookup cc.name (firstPass burritoRecords).2).isSome = true →
          (if cc.name == "Burrito" then 1 else 0) < (if p.1 == "Burrito" then 1 else 0)) ∧
    (∀ p ∈ (firstPass burritoRecords).2, (if p.1 == "Burrito" then 1 else 0) < 2) ∧
    (loadDatabase burritoRecords 2).exhausted = false :=
  ⟨by decide, by decide,
   acyclic_resolution_terminates burritoRecords
     (fun n => if n == "Burrito" then 1 else 0) 2 (by decide) (by decide)⟩

theorem resolverInv_diagAppend {pending : List (String × CompRecord)}
    {foods0 : List (String × Food)} {c : String} {s : RState}
    (h : ResolverInv pending foods0 c s) (ds : List Diag) :
    ResolverInv pending foods0 c { s with diags := s.diags ++ ds } := by
  obtain ⟨h1, h2, h3, h4, h5⟩ := h
  exact ⟨h1, h2, h3, h4, fun n crec hx hy hz cc hcc he =>
    List.mem_append_left ds (h5 n crec hx hy hz cc hcc he)⟩

theorem resolverInv_exhaust {pending : List (String × CompRecord)}
    {foods0 : List (String × Food)} {c : String} {s : RState}
    (h : ResolverInv pending foods0 c s) :
    ResolverInv pending foods0 c { s with exhausted := true } := h

theorem resolveComp_fold_inv (pending : List (String × CompRecord))
    (foods0 : List (String × Food)) (c : String)
    (hcp : alookup c pending = none) (fuel' : Nat) (parent : String)
    (IH : ∀ (name : String) (st : RState), ResolverInv pending foods0 c st →
        ResolverInv pending foods0 c (resolveFood pending fuel' name st).2 ∧
        (∀ f, (resolveFood pending fuel' name st).1 = some f → f.name = name)) :
    ∀ (comps : List CompRef) (acc : List (Food × ℚ) × RState),
      ResolverInv pending foods0 c acc.2 → (∀ p ∈ acc.1, p.1.name ≠ c) →
      ResolverInv pending foods0 c
          (comps.foldl (resolveComp pending fuel' parent) acc).2 ∧
      (∀ p ∈ (comps.foldl (resolveComp pending fuel' parent) acc).1, p.1.name ≠ c) ∧
      (∀ x ∈ acc.2.diags,
        x ∈ (comps.foldl (resolveComp pending fuel' parent) acc).2.diags) ∧
      (∀ cc ∈ comps, cc.name = c →
        Diag.componentMissing c parent
          ∈ (comps.foldl (resolveComp pending fuel' parent) acc).2.diags) := by
  intro comps
  induction comps with
  | nil =>
      intro acc hinv hnoc
      refine ⟨hinv, hnoc, fun x hx => hx, ?_⟩
      intro cc hcc
      simp at hcc
  | cons cc rest ih =>
      intro acc hinv hnoc
      have step : ResolverInv pending foods0 c (resolveComp pending fuel' parent acc cc).2 ∧
          (∀ p ∈ (resolveComp pending fuel' parent acc cc).1, p.1.name ≠ c) ∧
          (∀ x ∈ acc.2.diags, x ∈ (resolveComp pending fuel' parent acc cc).2.diags) ∧
          (cc.name = c → Diag.componentMissing c parent
              ∈ (resolveComp pending fuel' parent acc cc).2.diags) := by
        cases hl : alookup cc.name acc.2.foods with
        | some f =>
            simp only [resolveComp, hl]
            have hfn : f.name = cc.name := hinv.1 cc.name f hl
            have hccne : cc.name ≠ c := by
              intro he
              rw [he] at hl
              rw [hinv.2.1] at hl
              cases hl
            refine ⟨hinv, ?_, fun x hx => hx, fun he => absurd he hccne⟩
            intro p hp
            rcases List.mem_append.mp hp with hp | hp
            · exact hnoc p hp
            · simp at hp
              rw [hp, hfn]
              exact hccne
        | none =>
            simp only [resolveComp, hl]
            obtain ⟨hinv', hname'⟩ := IH cc.name acc.2 hinv
            have hmono := resolveFood_mono pending fuel' cc.name acc.2
            cases hres : resolveFood pending fuel' cc.name acc.2 with
            | mk fOpt st₁ =>
                rw [hres] at hinv' hname' hmono
                cases fOpt with
                | some f =>
                    have hfn : f.name = cc.name := hname' f rfl
                    have hccne : cc.name ≠ c := by
                      intro he
                      rw [he] at hl hres
                      rw [resolveFood_missing hl hcp] at hres
                      simp at hres
                    refine ⟨hinv', ?_, fun x hx => hmono.2.1 x hx,
                      fun he => absurd he hccne⟩
                    intro p hp
                    rcases List.mem_append.mp hp with hp | hp
                    · exact hnoc p hp
                    · simp at hp
                      rw [hp, hfn]
                      exact hccne
                | none =>
                    refine ⟨resolverInv_diagAppend hinv' _, hnoc, ?_, ?_⟩
                    · intro x hx
                      exact List.mem_append_left _ (hmono.2.1 x hx)
                    · intro he
                      rw [he]
                      exact List.mem_append_right _ (by simp)
      obtain ⟨s1, s2, s3, s4⟩ := step
      obtain ⟨r1, r2, r3, r4⟩ := ih (resolveComp pending fuel' parent acc cc) s1 s2
      rw [List.foldl_cons]
      refine ⟨r1, r2, ?_, ?_⟩
      · intro x hx
        exact r3 x (s3 x hx)
      · intro cc' hcc' he
        rcases List.mem_cons.mp hcc' with hcc' | hcc'
        · subst hcc'
          exact r3 _ (s4 he)
        · exact r4 cc' hcc' he

theorem resolveFood_inv (pending : List (String × CompRecord))
    (foods0 : List (String × Food)) (c : String)
    (hcp : alookup c pending = none) :
    ∀ (fuel : Nat) (name : String) (st : RState), ResolverInv pending foods0 c st →
      ResolverInv pending foods0 c (resolveFood pending fuel name st).2 ∧
      (∀ f, (resolveFood pending fuel name st).1 = some f → f.name = name) := by
  intro fuel
  induction fuel using Nat.strong_induction_on with
  | _ fuel IH =>
    intro name st hinv
    cases hf : alookup name st.foods with
    | some f =>
        rw [resolveFood_cached hf]
        refine ⟨hinv, ?_⟩
        intro g hg
        cases hg
        exact hinv.1 name f hf
    | none =>
      cases hp : alookup name pending with
      | none =>
          rw [resolveFood_missing hf hp]
          exact ⟨resolverInv_diagAppend hinv _, fun g hg => by cases hg⟩
      | some crec =>
        cases fuel with
        | zero =>
            rw [resolveFood_fuelZero hf hp]
            exact ⟨resolverInv_exhaust hinv, fun g hg => by cases hg⟩
        | succ fuel' =>
          rw [resolveFood_build hf hp]
          obtain ⟨f1, f2, f3, f4⟩ := resolveComp_fold_inv pending foods0 c hcp fuel' name
            (fun nm s hs => IH fuel' (Nat.lt_succ_self fuel') nm s hs)
            crec.components ([], st) hinv (by simp)
          have hnec : name ≠ c := by
            intro he
            rw [he, hcp] at hp
            cases hp
          constructor
          · obtain ⟨g1, g2, g3, g4, g5⟩ := f1
            refine ⟨?_, ?_, ?_, ?_, ?_⟩
            · intro n g hg
              by_cases he : n = name
              · subst he
                rw [alookup_mapInsert_self] at hg
                cases hg
                rfl
              · rw [alookup_mapInsert_ne he] at hg
                exact g1 n g hg
            · rw [alookup_mapInsert_ne (fun e => hnec e.symm)]
              exact g2
            · intro n hn
              exact isSome_alookup_mapInsert _ _ _ _ (g3 n hn)
            · intro n g hg
              by_cases he : n = name
              · subst he
                rw [alookup_mapInsert_self] at hg
                cases hg
                exact Or.inr ⟨crec, _, hp, rfl, f2⟩
              · rw [alookup_mapInsert_ne he] at hg
                exact g4 n g hg
            · intro n crec' hpend hnone hsome cc hcc he
              by_cases hne : n = name
              · subst hne
                rw [hp] at hpend
                cases hpend
                exact f4 cc hcc he
              · rw [alookup_mapInsert_ne hne] at hsome
                exact g5 n crec' hpend hnone hsome cc hcc he
          · intro g hg
            cases hg
            rfl

theorem firstPass_names (records : List RawRecord) :
    ∀ n f, alookup n (firstPass records).1 = some f → f.name = n := by
  refine foldl_preserveP
    (fun acc : List (String × Food) × List (String × CompRecord) =>
      ∀ n f, alookup n acc.1 = some f → f.name = n)
    (fun acc r =>
      match r with
      | .basic n kw cal => (mapInsert n (Food.basic n kw cal) acc.1, acc.2)
      | .composite n kw comps => (acc.1, mapInsert n (⟨n, kw, comps⟩ : CompRecord) acc.2))
    records ?_ ([], []) ?_
  · intro acc r hr hacc
    cases r with
    | basic nm kw cal =>
        intro n f h
        simp only at h
        by_cases he : n = nm
        · subst he
          rw [alookup_mapInsert_self] at h
          cases h
          rfl
        · rw [alookup_mapInsert_ne he] at h
          exact hacc n f h
    | composite nm kw comps =>
        intro n f h
        simp only at h
        exact hacc n f h
  · intro n f h
    cases h

theorem loadDatabase_inv (records : List RawRecord) (c : String) (fuel : Nat)
    (hcp : alookup c (firstPass records).2 = none)
    (hc0 : alookup c (firstPass records).1 = none) :
    ResolverInv (firstPass records).2 (firstPass records).1 c (loadDatabase records fuel) := by
  have hinit : ResolverInv (firstPass records).2 (firstPass records).1 c
      { foods := (firstPass records).1, diags := [], exhausted := false } := by
    refine ⟨firstPass_names records, hc0, fun n h => h, fun n f h => Or.inl h, ?_⟩
    intro n crec hpend hnone hsome cc hcc he
    rw [hnone] at hsome
    simp at hsome
  have h := foldl_preserveP
    (fun st : RState => ResolverInv (firstPass records).2 (firstPass records).1 c st)
    (fun s p => (resolveFood (firstPass records).2 fuel p.1 s).2) (firstPass records).2
    (fun s p hp hs =>
      (resolveFood_inv (firstPass records).2 (firstPass records).1 c hcp fuel p.1 s hs).1)
    { foods := (firstPass records).1, diags := [], exhausted := false } hinit
  exact h

theorem resolveFood_key_added (pending : List (String × CompRecord)) (fuel : Nat)
    (name : String) (st : RState) (h : (alookup name pending).isSome = true) :
    (alookup name (resolveFood pending fuel name st).2.foods).isSome = true
      ∨ (resolveFood pending fuel name st).2.exhausted = true := by
  cases hf : alookup name st.foods with
  | some f =>
      rw [resolveFood_cached hf]
      exact Or.inl (by simp [hf])
  | none =>
    cases hp : alookup name pending with
    | none =>
        rw [hp] at h
        simp at h
    | some crec =>
      cases fuel with
      | zero =>
          rw [resolveFood_fuelZero hf hp]
          exact Or.inr rfl
      | succ fuel' =>
          rw [resolveFood_build hf hp]
          exact Or.inl (by simp [alookup_mapInsert_self])

theorem secondPass_covers (pending : List (String × CompRecord)) (fuel : Nat)
    (q : String × CompRecord) (hq : q ∈ pending) (st : RState) :
    (alookup q.1 (runSecondPass pending fuel st).foods).isSome = true
      ∨ (runSecondPass pending fuel st).exhausted = true := by
  unfold runSecondPass
  refine foldl_establishes
    (fun s : RState => (alookup q.1 s.foods).isSome = true ∨ s.exhausted = true)
    (fun s p => (resolveFood pending fuel p.1 s).2) pending q hq ?_ ?_ st
  · intro acc x hx hQ
    have hm := resolveFood_mono pending fuel x.1 acc
    rcases hQ with hQ | hQ
    · exact Or.inl (hm.2.2 q.1 hQ)
    · exact Or.inr (hm.1 hQ)
  · intro acc
    exact resolveFood_key_added pending fuel q.1 acc (mem_alookup_isSome hq)

/-- C4: if a composite record references a component name that is neither a
first-pass basic nor a pending composite, resolution still completes
(given sufficient fuel), emits the missing-component diagnostic naming the
absent component and the composite, omits that component from the built
composite (no component of the result is named after it), and the
composite's calorie total ranges only over the remaining components. -/
theorem missing_component_is_omitted (records : List RawRecord) (fuel : Nat)
    (P c : String) (crec : CompRecord) (s : ℚ)
    (hP : alookup P (firstPass records).2 = some crec)
    (hcc : (⟨c, s⟩ : CompRef) ∈ crec.components)
    (hc0 : alookup c (firstPass records).1 = none)
    (hcp : alookup c (firstPass records).2 = none)
    (hP0 : alookup P (firstPass records).1 = none)
    (hok : (loadDatabase records fuel).exhausted = false) :
    Diag.componentMissing c P ∈ (loadDatabase records fuel).diags ∧
    ∃ comps, alookup P (loadDatabase records fuel).foods
        = some (Food.composite P crec.keywords comps) ∧
      (∀ p ∈ comps, p.1.name ≠ c) ∧
      (Food.composite P crec.keywords comps).getCalories
        = (comps.map (fun p => p.1.getCalories * p.2)).sum := by
  have hinv := loadDatabase_inv records c fuel hcp hc0
  have hcover : (alookup P (loadDatabase records fuel).foods).isSome = true
      ∨ (loadDatabase records fuel).exhausted = true :=
    secondPass_covers (firstPass records).2 fuel (P, crec) (alookup_mem hP)
      { foods := (firstPass records).1, diags := [], exhausted := false }
  rcases hcover with hsome | hexh
  · obtain ⟨g1, g2, g3, g4, g5⟩ := hinv
    cases hval : alookup P (loadDatabase records fuel).foods with
    | none =>
        rw [hval] at hsome
        simp at hsome
    | some f =>
        have h4 := g4 P f hval
        rcases h4 with h4 | ⟨crec', comps, hpend', hf, hnoc⟩
        · rw [hP0] at h4
          cases h4
        · rw [hP] at hpend'
          cases hpend'
          constructor
          · exact g5 P crec hP hP0 (by rw [hval]; rfl) ⟨c, s⟩ hcc rfl
          · exact ⟨comps, by rw [← hf], hnoc, getCalories_composite ..⟩
  · rw [hok] at hexh
    cases hexh

theorem missing_component_is_omitted_witness :
    Diag.componentMissing "Missing" "Burrito" ∈ (loadDatabase missingRecords 5).diags ∧
    ∃ comps, alookup "Burrito" (loadDatabase missingRecords 5).foods
        = some (Food.composite "Burrito" ["mexican"] comps) ∧
      (∀ p ∈ comps, p.1.name ≠ "Missing") ∧
      (Food.composite "Burrito" ["mexican"] comps).getCalories
        = (comps.map (fun p => p.1.getCalories * p.2)).sum :=
  missing_component_is_omitted missingRecords 5 "Burrito" "Missing"
    ⟨"Burrito", ["mexican"], [⟨"Rice", 2⟩, ⟨"Missing", 1⟩]⟩ 1
    rfl (by decide) rfl rfl rfl rfl
